import Mathlib

/-!
Verification of the ecr-copy program (`src/main.go`).

The program copies a container image between two ECR repositories:
it fetches the manifest (`getManifest`), asks the destination which
layer blobs it already has (`checkLayerAvails`), streams each missing
blob through a fixed-size part buffer into a chunked upload session
(`copyLayer`, driven by `copyLayers`), and finally republishes the
original manifest bytes (`putManifest`).

The embedding below models bytes as `Nat`, a source stream as the list
of chunk payloads successive `Read` calls deliver before end-of-stream,
and the SHA-256 accumulator by the exact byte sequence written to it
(Go's `hash.Hash` finalization is a pure function of that sequence, so
every digest-level statement is proved for an arbitrary finalization
function `hash : List Byte → String`).
-/

namespace EcrCopy

/-- A byte of blob content; the program treats byte values opaquely. -/
abbrev Byte := Nat

/-- `type imageLayer struct` from src/main.go: mediaType, size, digest. -/
structure imageLayer where
  MediaType : String
  Size : Int
  Digest : String
deriving DecidableEq, Repr

/-- `type manifest struct` from src/main.go: a config blob and a layer list. -/
structure manifest where
  Config : imageLayer
  Layers : List imageLayer
deriving DecidableEq, Repr

/-- One `ecr.UploadLayerPartInput` issued by `copyLayer`: the part's bytes and
the absolute byte range it is tagged with (`PartFirstByte`, `PartLastByte`,
both `int64` in the source). -/
structure uploadPartCall where
  bytes : List Byte
  PartFirstByte : Int
  PartLastByte : Int
deriving DecidableEq, Repr

/-- Total number of bytes remaining in a stream (sum of chunk lengths). -/
def streamBytes (s : List (List Byte)) : Nat := (s.map List.length).sum

/-- The inner `downloadPart` loop of `copyLayer` (src/main.go lines 175-202):
repeatedly `Read` into the part buffer at the current fill offset until the
buffer is full (`partSize == *upload.PartSize`) or the stream signals
end-of-stream with a zero-byte read.  A `Read` against chunk list `c :: rest`
returns up to `space` bytes of `c` (a short read leaves the remainder of `c`
at the head); a `Read` against `[]` returns `(0, io.EOF)`.  Returns the
accumulated part, the remaining stream, and the `lastPart` flag.  `fuel`
bounds the number of `Read` calls; `fillFuel` below always suffices. -/
def fillPartF : Nat → Nat → List Byte → List (List Byte) → List Byte × List (List Byte) × Bool
  | 0, _, acc, s => (acc, s, true)
  | _ + 1, _, acc, [] => (acc, [], true)
  | fuel + 1, cap, acc, c :: rest =>
      let taken := c.take (cap - acc.length)
      let rem := c.drop (cap - acc.length)
      let s' := if rem = [] then rest else rem :: rest
      if taken = [] then
        fillPartF fuel cap acc s'
      else
        if (acc ++ taken).length = cap then (acc ++ taken, s', false)
        else fillPartF fuel cap (acc ++ taken) s'

/-- Enough fuel for `fillPartF`: every `Read` either consumes a byte or
discards an exhausted chunk. -/
def fillFuel (s : List (List Byte)) : Nat := streamBytes s + s.length + 1

/-- The outer part loop of `copyLayer` (src/main.go lines 171-230): fill a
part, stop without emitting when the final read left zero accumulated bytes
(`partSize == 0 && lastPart`), signal the `panic("internal logic error")`
path as `none`, otherwise upload the part tagged with
`[partFirstByte, partFirstByte+partSize-1]`, write the same bytes to the
sha accumulator, advance the offset by the part length, and continue while
`!lastPart`.  Returns the upload calls in order plus the full byte sequence
written to the sha accumulator; `fuel` bounds the number of parts. -/
def copyLoopF : Nat → Nat → List (List Byte) → Int → List Byte →
    Option (List uploadPartCall × List Byte)
  | 0, _, _, _, _ => none
  | fuel + 1, cap, s, partFirstByte, shaAcc =>
      match fillPartF (fillFuel s) cap [] s with
      | (part, s', lastPart) =>
        if part.length = 0 then
          if lastPart then some ([], shaAcc) else none
        else
          let call : uploadPartCall :=
            ⟨part, partFirstByte, partFirstByte + (part.length : Int) - 1⟩
          let shaAcc' := shaAcc ++ part
          if lastPart then some ([call], shaAcc')
          else
            (copyLoopF fuel cap s' (partFirstByte + (part.length : Int)) shaAcc').map
              (fun r => (call :: r.1, r.2))

/-- Enough fuel for `copyLoopF`: every emitted non-final part consumes at
least one byte of the stream. -/
def outerFuel (s : List (List Byte)) : Nat := streamBytes s + 2

/-- The observable effects of one `copyLayer` invocation: the
`UploadLayerPart` calls in order, the bytes written to the sha accumulator,
and the `LayerDigests` token passed to `CompleteLayerUpload`. -/
structure copyLayerResult where
  uploads : List uploadPartCall
  hashed : List Byte
  commitToken : String
deriving DecidableEq, Repr

/-- `copyLayer` (src/main.go lines 142-245) for a session with part size
`cap` and upload id `uploadId`, reading from `stream`.  `hash` is the
finalization of Go's sha256 accumulator (`fmt.Sprintf("%064x", sha.Sum(nil))`
as a pure function of the bytes written); the commit token is
`fmt.Sprintf("%s:%064x", *upload.UploadId, sha.Sum(nil))`.  `none` models
the unreachable `panic` path (or fuel exhaustion, which `outerFuel`
precludes for positive part sizes). -/
def copyLayer (cap : Nat) (uploadId : String) (stream : List (List Byte))
    (hash : List Byte → String) : Option copyLayerResult :=
  (copyLoopF (outerFuel stream) cap stream 0 []).map
    (fun r => ⟨r.1, r.2, uploadId ++ ":" ++ hash r.2⟩)

/-- The hash algorithm `copyLayer` instantiates at src/main.go line 167
(`sha := sha256.New()`): always SHA-256, regardless of the layer digest
being transferred (the `layerDigest` parameter is not consulted). -/
def copyLayerHashAlgorithm (layerDigest : String) : String := "sha256"

/-- Modelled from the spec: a `ContentDigest` has textual form
`"algo:hex"`; its declared algorithm is the part before the first colon. -/
def declaredAlgorithm (d : String) : String :=
  ⟨d.toList.takeWhile (fun c => c ≠ ':')⟩

/-! Spec-side characterization of the emitted parts: the blob cut into
consecutive pieces of exactly `cap` bytes, the final piece possibly
shorter, with no empty trailing piece. -/

/-- Fueled worker for `wholeChunks`; `fuel ≥ blob.length` suffices when
`0 < cap`. -/
def wholeChunksF : Nat → Nat → List Byte → List (List Byte)
  | _, _, [] => []
  | 0, _, blob => [blob]
  | fuel + 1, cap, b :: blob => ((b :: blob).take cap) :: wholeChunksF fuel cap ((b :: blob).drop cap)

/-- The blob cut into `cap`-sized pieces (final piece possibly shorter,
never empty). -/
def wholeChunks (cap : Nat) (blob : List Byte) : List (List Byte) :=
  wholeChunksF blob.length cap blob

/-- The upload calls a list of parts generates starting at absolute offset
`firstByte`: each part is tagged `[firstByte, firstByte+len-1]` and the
offset advances by the part's length. -/
def callsFrom (firstByte : Int) : List (List Byte) → List uploadPartCall
  | [] => []
  | p :: ps => ⟨p, firstByte, firstByte + (p.length : Int) - 1⟩ :: callsFrom (firstByte + (p.length : Int)) ps

/-- The byte ranges of a list of upload calls are contiguous starting at
`firstByte`: each call starts where told, ends at start + length - 1, and
the next call starts one past this call's last byte. -/
def contiguousFrom (firstByte : Int) : List uploadPartCall → Prop
  | [] => True
  | c :: rest => c.PartFirstByte = firstByte ∧
      c.PartLastByte = firstByte + (c.bytes.length : Int) - 1 ∧
      contiguousFrom (c.PartLastByte + 1) rest

/-! Embedding of the remaining functions: manifest resolution, availability
checking, the per-layer driver, manifest publication, and `main`'s control
flow.  Registry RPC outcomes are injected as parameters (`Except` values or
outcome functions); everything the program itself computes is modelled
directly. -/

/-- One character class of `hexRe` (src/main.go line 279:
`regexp.MustCompile` of the pattern lowercase-a-to-f-or-digit, anchored). -/
def isHexChar (c : Char) : Bool := ('a' ≤ c && c ≤ 'f') || ('0' ≤ c && c ≤ '9')

/-- `hexRe.MatchString`: the anchored pattern matches exactly the nonempty
strings of lowercase hex characters. -/
def hexReMatch (l : List Char) : Bool := !l.isEmpty && l.all isHexChar

/-- `strings.Cut(s, ":")` on the character list: split around the first
colon, `none` when there is no colon (`didCut == false`). -/
def cutColon : List Char → Option (List Char × List Char)
  | [] => none
  | c :: rest =>
      if c = ':' then some ([], rest)
      else (cutColon rest).map (fun p => (c :: p.1, p.2))

/-- src/main.go lines 70-74: the reference is looked up as an image digest
exactly when it contains a colon and the part after the first colon matches
`hexRe`; otherwise it is looked up as a tag. -/
def classifiesAsDigest (ref : String) : Bool :=
  match cutColon ref.toList with
  | some (_, hex) => hexReMatch hex
  | none => false

/-- `getManifest` (src/main.go lines 64-95): require exactly one image in
the `BatchGetImage` response, unmarshal its manifest, and return the raw
manifest string unchanged together with `append(m.Layers, m.Config)`.
The RPC outcome is the `batchResult` parameter (the list of
`ImageManifest` strings of the returned images); JSON unmarshalling is the
external `parse` parameter, `none` modelling an unmarshal error. -/
def getManifest (batchResult : Except String (List String))
    (parse : String → Option manifest) :
    Except String (String × List imageLayer) :=
  match batchResult with
  | .error e => .error ("BatchGetImage: " ++ e)
  | .ok imgs =>
    match imgs with
    | [manifestBytes] =>
      match parse manifestBytes with
      | some m => .ok (manifestBytes, m.Layers ++ [m.Config])
      | none => .error "Unmarshal ImageManifest"
    | _ => .error ("BatchGetImage: Got " ++ toString imgs.length ++ " Images")

/-- One entry of the `BatchCheckLayerAvailability` response. -/
structure layerAvailability where
  LayerDigest : String
  LayerAvailability : String
deriving DecidableEq, Repr

/-- The `destHasLayer` map built at src/main.go lines 112-117: the digests
reported with status exactly `AVAILABLE` (a map to `true` is a key set). -/
def destHasLayer (avails : List layerAvailability) : List String :=
  avails.foldl
    (fun m la =>
      if la.LayerAvailability = "AVAILABLE" then la.LayerDigest :: m else m)
    []

/-- `checkLayerAvails` (src/main.go lines 97-128): keep, in input order,
exactly the layers whose digest the destination did not report
`AVAILABLE`.  The batch RPC outcome is the `avails` parameter. -/
def checkLayerAvails (layers : List imageLayer)
    (avails : List layerAvailability) : List imageLayer :=
  layers.filter (fun l => !(destHasLayer avails).contains l.Digest)

/-- Modelled from the spec: a digest counts as available only when some
response entry reports it with status exactly `AVAILABLE`; any other
status, or absence from the response, counts as not available. -/
def reportedAvailable (avails : List layerAvailability) (d : String) : Bool :=
  avails.any (fun la => la.LayerDigest = d && la.LayerAvailability = "AVAILABLE")

/-- `copyLayers` (src/main.go lines 130-140): transfer the planned layers
in order, stopping at the first failure and wrapping its error.  Each
`copyLayer` invocation's outcome is given by `outcome`, keyed by the layer
digest.  Returns the digests actually passed to `copyLayer`, in call
order, together with the overall result. -/
def copyLayers (layers : List imageLayer)
    (outcome : String → Except String Unit) :
    List String × Except String Unit :=
  match layers with
  | [] => ([], .ok ())
  | l :: rest =>
    match outcome l.Digest with
    | .error e => ([l.Digest], .error ("copyLayer: " ++ e))
    | .ok () =>
      let r := copyLayers rest outcome
      (l.Digest :: r.1, r.2)

/-- The `ecr.PutImageInput` built by `putManifest`. -/
structure putImageInput where
  ImageManifest : String
  ImageTag : Option String
deriving DecidableEq, Repr

/-- `putManifest` (src/main.go lines 247-266): build the `PutImageInput`
from the unmodified manifest bytes, attach `ImageTag` only when a new tag
was supplied, and issue `PutImage` (outcome injected as `putResult`). -/
def putManifest (newTag : String) (manifestBytes : String)
    (putResult : Except String Unit) : putImageInput × Except String Unit :=
  (⟨manifestBytes, if newTag = "" then none else some newTag⟩,
   match putResult with
   | .error e => .error ("PutImage: " ++ e)
   | .ok () => .ok ())

/-- The outcome of one run of `main` (src/main.go lines 19-62) after
argument parsing: which layer digests were passed to `copyLayer`, the
`PutImageInput` passed to `PutImage` when that call was reached, and the
first fatal error (`log.Fatal`), if any. -/
structure runResult where
  copied : List String
  published : Option putImageInput
  err : Option String
deriving DecidableEq, Repr

/-- `main` (src/main.go lines 19-62) after argument parsing: resolve the
manifest, compute the needed layers, copy them in order, then publish the
manifest; each error stops the run via `log.Fatal`. -/
def mainRun (batchResult : Except String (List String))
    (parse : String → Option manifest)
    (availResp : Except String (List layerAvailability))
    (outcome : String → Except String Unit)
    (putResult : Except String Unit) (newTag : String) : runResult :=
  match getManifest batchResult parse with
  | .error e => ⟨[], none, some e⟩
  | .ok (manifestBytes, layers) =>
    match availResp with
    | .error e => ⟨[], none, some ("BatchCheckLayerAvailability: " ++ e)⟩
    | .ok avails =>
      match copyLayers (checkLayerAvails layers avails) outcome with
      | (attempted, .error e) => ⟨attempted, none, some e⟩
      | (attempted, .ok ()) =>
        match putManifest newTag manifestBytes putResult with
        | (input, .error e) => ⟨attempted, some input, some e⟩
        | (input, .ok ()) => ⟨attempted, some input, none⟩

/-! Closed-form characterization of the inner accumulation loop. -/

theorem streamBytes_cons (c : List Byte) (rest : List (List Byte)) :
    streamBytes (c :: rest) = c.length + streamBytes rest := by
  simp [streamBytes]

theorem streamBytes_eq_length_flatten (s : List (List Byte)) :
    streamBytes s = s.flatten.length := by
  simp [streamBytes]

/-- When the stream holds fewer bytes than the remaining buffer space, the
inner loop drains it entirely and reports end-of-stream. -/
theorem fillPartF_eof (cap : Nat) :
    ∀ fuel (acc : List Byte) (s : List (List Byte)), acc.length < cap →
      streamBytes s + s.length < fuel →
      acc.length + streamBytes s < cap →
      fillPartF fuel cap acc s = (acc ++ s.flatten, [], true)
  | 0, _, _, _, hfuel, _ => absurd hfuel (by omega)
  | fuel + 1, acc, [], _, _, _ => by simp [fillPartF]
  | fuel + 1, acc, c :: rest, hacc, hfuel, hlt => by
    rw [streamBytes_cons] at hfuel hlt
    rw [List.length_cons] at hfuel
    have htake : c.take (cap - acc.length) = c :=
      List.take_of_length_le (by omega)
    have hdrop : c.drop (cap - acc.length) = [] :=
      List.drop_eq_nil_of_le (by omega)
    by_cases hc : c = []
    · subst hc
      have ih := fillPartF_eof cap fuel acc rest hacc
        (by simp at hfuel; omega) (by simp at hlt; omega)
      simp only [fillPartF, List.take_nil, List.drop_nil, if_pos rfl]
      simpa using ih
    · have hlen : (acc ++ c).length ≠ cap := by simp; omega
      have ih := fillPartF_eof cap fuel (acc ++ c) rest
        (by simp; omega) (by omega) (by simp; omega)
      simp only [fillPartF, htake, hdrop, if_pos rfl, if_true, if_neg hc, if_neg hlen]
      rw [ih, List.flatten_cons, List.append_assoc]

/-- When the stream holds at least the remaining buffer space, the inner
loop emits a full buffer and leaves exactly the remaining bytes behind. -/
theorem fillPartF_full (cap : Nat) :
    ∀ fuel (acc : List Byte) (s : List (List Byte)), acc.length < cap →
      streamBytes s + s.length < fuel →
      cap ≤ acc.length + streamBytes s →
      ∃ s', fillPartF fuel cap acc s = ((acc ++ s.flatten).take cap, s', false) ∧
        s'.flatten = (acc ++ s.flatten).drop cap
  | 0, _, _, _, hfuel, _ => absurd hfuel (by omega)
  | fuel + 1, acc, [], hacc, _, hge => by
    simp [streamBytes] at hge; omega
  | fuel + 1, acc, c :: rest, hacc, hfuel, hge => by
    rw [streamBytes_cons] at hfuel hge
    rw [List.length_cons] at hfuel
    by_cases hc : c = []
    · subst hc
      obtain ⟨s', h1, h2⟩ := fillPartF_full cap fuel acc rest hacc
        (by simp at hfuel; omega) (by simp at hge; omega)
      refine ⟨s', ?_, ?_⟩
      · simp only [fillPartF, List.take_nil, List.drop_nil, if_pos rfl]
        simpa using h1
      · simpa using h2
    · have htaken : c.take (cap - acc.length) ≠ [] := by
        rw [ne_eq, List.take_eq_nil_iff]
        push_neg
        exact ⟨by omega, hc⟩
      by_cases hfull : (acc ++ c.take (cap - acc.length)).length = cap
      · -- the chunk fills the buffer: emit, keep the chunk's remainder
        have hsp : cap - acc.length ≤ c.length := by
          simp [List.length_take] at hfull; omega
        have emit : (acc ++ (c :: rest).flatten).take cap
            = acc ++ c.take (cap - acc.length) := by
          rw [List.flatten_cons, List.take_append_eq_append_take,
            List.take_of_length_le (Nat.le_of_lt hacc),
            List.take_append_eq_append_take]
          have h0 : cap - acc.length - c.length = 0 := by omega
          rw [h0, List.take_zero, List.append_nil]
        have hdropEq : (acc ++ (c :: rest).flatten).drop cap
            = c.drop (cap - acc.length) ++ rest.flatten := by
          rw [List.flatten_cons, List.drop_append_eq_append_drop,
            List.drop_eq_nil_of_le (Nat.le_of_lt hacc), List.nil_append,
            List.drop_append_eq_append_drop]
          have h0 : cap - acc.length - c.length = 0 := by omega
          rw [h0, List.drop_zero]
        refine ⟨if c.drop (cap - acc.length) = [] then rest
                else c.drop (cap - acc.length) :: rest, ?_, ?_⟩
        · simp only [fillPartF, if_neg htaken, if_pos hfull]
          rw [emit]
        · have hs'flat : (if c.drop (cap - acc.length) = [] then rest
              else c.drop (cap - acc.length) :: rest).flatten
              = c.drop (cap - acc.length) ++ rest.flatten := by
            by_cases hr : c.drop (cap - acc.length) = []
            · rw [if_pos hr, hr, List.nil_append]
            · rw [if_neg hr, List.flatten_cons]
          rw [hs'flat, hdropEq]
      · -- short chunk: the whole chunk is consumed, keep accumulating
        have hsp : c.length < cap - acc.length := by
          simp [List.length_take] at hfull
          omega
        have htake : c.take (cap - acc.length) = c :=
          List.take_of_length_le (by omega)
        have hdrop : c.drop (cap - acc.length) = [] :=
          List.drop_eq_nil_of_le (by omega)
        have hlen : (acc ++ c).length ≠ cap := by simp; omega
        obtain ⟨s', h1, h2⟩ := fillPartF_full cap fuel (acc ++ c) rest
          (by simp; omega) (by omega) (by simp; omega)
        refine ⟨s', ?_, ?_⟩
        · simp only [fillPartF, htake, hdrop, if_pos rfl, if_true,
            if_neg hc, if_neg hlen]
          rw [h1, List.flatten_cons, ← List.append_assoc]
        · rw [h2, List.flatten_cons, ← List.append_assoc]

/-- `wholeChunksF` does not depend on the fuel once it covers the blob
length. -/
theorem wholeChunksF_fuel (cap : Nat) (hcap : 0 < cap) :
    ∀ f1 f2 (blob : List Byte), blob.length ≤ f1 → blob.length ≤ f2 →
      wholeChunksF f1 cap blob = wholeChunksF f2 cap blob
  | f1, f2, [], _, _ => by cases f1 <;> cases f2 <;> simp [wholeChunksF]
  | 0, _, b :: blob, h1, _ => by simp at h1
  | _ + 1, 0, b :: blob, _, h2 => by simp at h2
  | f1 + 1, f2 + 1, b :: blob, h1, h2 => by
    rw [List.length_cons] at h1 h2
    simp only [wholeChunksF]
    congr 1
    exact wholeChunksF_fuel cap hcap f1 f2 _
      (by simp [List.length_drop]; omega) (by simp [List.length_drop]; omega)

theorem wholeChunks_nil (cap : Nat) : wholeChunks cap [] = [] := rfl

/-- Unfolding equation for `wholeChunks` on a nonempty blob. -/
theorem wholeChunks_cons (cap : Nat) (hcap : 0 < cap) (blob : List Byte)
    (hne : blob ≠ []) :
    wholeChunks cap blob = blob.take cap :: wholeChunks cap (blob.drop cap) := by
  obtain ⟨b, bs, rfl⟩ := List.exists_cons_of_ne_nil hne
  show wholeChunksF (b :: bs).length cap (b :: bs) = _
  rw [List.length_cons]
  simp only [wholeChunksF]
  congr 1
  exact wholeChunksF_fuel cap hcap bs.length ((b :: bs).drop cap).length _
    (by simp [List.length_drop]; omega) (le_refl _)

theorem flatten_wholeChunksF (cap : Nat) (hcap : 0 < cap) :
    ∀ fuel (blob : List Byte), blob.length ≤ fuel →
      (wholeChunksF fuel cap blob).flatten = blob
  | fuel, [], _ => by cases fuel <;> simp [wholeChunksF]
  | 0, b :: blob, h => by simp at h
  | fuel + 1, b :: blob, h => by
    rw [List.length_cons] at h
    simp only [wholeChunksF, List.flatten_cons]
    rw [flatten_wholeChunksF cap hcap fuel _ (by simp [List.length_drop]; omega)]
    exact List.take_append_drop cap (b :: blob)

/-- Reassembling the chunks gives back the blob. -/
theorem flatten_wholeChunks (cap : Nat) (hcap : 0 < cap) (blob : List Byte) :
    (wholeChunks cap blob).flatten = blob :=
  flatten_wholeChunksF cap hcap blob.length blob (le_refl _)

/-- Closed form of the whole part loop: for a positive part size it never
panics, the upload calls are exactly the blob's `cap`-sized chunks tagged
with consecutive byte ranges, and the sha accumulator receives exactly the
blob's bytes. -/
theorem copyLoopF_eq (cap : Nat) (hcap : 0 < cap) :
    ∀ fuel (s : List (List Byte)) (fb : Int) (shaAcc : List Byte),
      streamBytes s + 2 ≤ fuel →
      copyLoopF fuel cap s fb shaAcc =
        some (callsFrom fb (wholeChunks cap s.flatten), shaAcc ++ s.flatten)
  | 0, _, _, _, hfuel => absurd hfuel (by omega)
  | fuel + 1, s, fb, shaAcc, hfuel => by
    by_cases hlt : streamBytes s < cap
    · have hfill := fillPartF_eof cap (fillFuel s) [] s hcap
        (by unfold fillFuel; omega) (by simpa using hlt)
      rw [List.nil_append] at hfill
      have hflen : s.flatten.length = streamBytes s :=
        (streamBytes_eq_length_flatten s).symm
      by_cases hnil : s.flatten.length = 0
      · have hfe : s.flatten = [] := List.length_eq_zero.mp hnil
        simp only [copyLoopF, hfill, hnil, if_pos rfl, if_true]
        rw [hfe, wholeChunks_nil]
        simp [callsFrom]
      · simp only [copyLoopF, hfill, if_neg hnil, if_true]
        rw [wholeChunks_cons cap hcap s.flatten
          (fun h => hnil (by rw [h]; rfl))]
        rw [List.take_of_length_le (by omega),
          List.drop_eq_nil_of_le (by omega), wholeChunks_nil]
        simp [callsFrom]
    · obtain ⟨s', hfill, hflat⟩ := fillPartF_full cap (fillFuel s) [] s hcap
        (by unfold fillFuel; omega) (by simpa using Nat.le_of_not_lt hlt)
      rw [List.nil_append] at hfill hflat
      have hflen : s.flatten.length = streamBytes s :=
        (streamBytes_eq_length_flatten s).symm
      have hlenpart : (s.flatten.take cap).length = cap := by
        rw [List.length_take]; omega
      have hne0 : ¬(s.flatten.take cap).length = 0 := by omega
      have hsb' : streamBytes s' = streamBytes s - cap := by
        rw [streamBytes_eq_length_flatten, hflat, List.length_drop]; omega
      have ih := copyLoopF_eq cap hcap fuel s'
        ((fb + ((s.flatten.take cap).length : Int))) (shaAcc ++ s.flatten.take cap)
        (by omega)
      simp only [copyLoopF, hfill, if_neg hne0, Bool.false_eq_true, if_false,
        ih, Option.map_some']
      rw [hflat]
      rw [wholeChunks_cons cap hcap s.flatten
        (fun h => by rw [h] at hflen; simp at hflen; omega)]
      simp only [callsFrom, hlenpart]
      rw [List.append_assoc, List.take_append_drop]

/-- Master theorem for `copyLayer`: for a positive session part size the
transfer always reaches the commit, the upload calls are exactly the blob's
`cap`-sized chunks tagged with consecutive byte ranges from offset 0, the
sha accumulator receives exactly the blob, and the commit token is
`uploadId ++ ":" ++ hash blob`. -/
theorem copyLayer_eq (cap : Nat) (hcap : 0 < cap) (uploadId : String)
    (stream : List (List Byte)) (hash : List Byte → String) :
    copyLayer cap uploadId stream hash =
      some ⟨callsFrom 0 (wholeChunks cap stream.flatten), stream.flatten,
            uploadId ++ ":" ++ hash stream.flatten⟩ := by
  unfold copyLayer
  rw [copyLoopF_eq cap hcap (outerFuel stream) stream 0 [] (le_refl _)]
  simp

/-- Every chunk is nonempty. -/
theorem wholeChunksF_ne_nil (cap : Nat) (hcap : 0 < cap) :
    ∀ fuel (blob : List Byte), blob.length ≤ fuel →
      ∀ p ∈ wholeChunksF fuel cap blob, p ≠ []
  | fuel, [], _ => by cases fuel <;> simp [wholeChunksF]
  | 0, b :: blob, h => by simp at h
  | fuel + 1, b :: blob, h => by
    rw [List.length_cons] at h
    simp only [wholeChunksF, List.mem_cons]
    rintro p (rfl | hp)
    · simp [List.take_eq_nil_iff]
      omega
    · exact wholeChunksF_ne_nil cap hcap fuel _
        (by simp [List.length_drop]; omega) p hp

theorem wholeChunks_ne_nil (cap : Nat) (hcap : 0 < cap) (blob : List Byte) :
    ∀ p ∈ wholeChunks cap blob, p ≠ [] :=
  wholeChunksF_ne_nil cap hcap blob.length blob (le_refl _)

/-- Every chunk except the final one has length exactly `cap`. -/
theorem wholeChunksF_dropLast (cap : Nat) (hcap : 0 < cap) :
    ∀ fuel (blob : List Byte), blob.length ≤ fuel →
      ∀ p ∈ (wholeChunksF fuel cap blob).dropLast, p.length = cap
  | fuel, [], _ => by cases fuel <;> simp [wholeChunksF]
  | 0, b :: blob, h => by simp at h
  | fuel + 1, b :: blob, h => by
    rw [List.length_cons] at h
    simp only [wholeChunksF]
    by_cases hrest : (b :: blob).drop cap = []
    · have : wholeChunksF fuel cap ((b :: blob).drop cap) = [] := by
        rw [hrest]; cases fuel <;> simp [wholeChunksF]
      rw [this]
      simp
    · have hlong : cap < (b :: blob).length := by
        rw [List.drop_eq_nil_iff] at hrest
        omega
      have hne : wholeChunksF fuel cap ((b :: blob).drop cap) ≠ [] := by
        obtain ⟨x, xs, hx⟩ := List.exists_cons_of_ne_nil hrest
        rw [hx]
        cases fuel
        · exfalso
          rw [List.length_cons] at hlong
          omega
        · simp [wholeChunksF]
      rw [List.dropLast_cons_of_ne_nil hne]
      simp only [List.mem_cons]
      rintro p (rfl | hp)
      · rw [List.length_take]
        omega
      · exact wholeChunksF_dropLast cap hcap fuel _
          (by simp [List.length_drop]; omega) p hp

theorem wholeChunks_dropLast (cap : Nat) (hcap : 0 < cap) (blob : List Byte) :
    ∀ p ∈ (wholeChunks cap blob).dropLast, p.length = cap :=
  wholeChunksF_dropLast cap hcap blob.length blob (le_refl _)

/-- When the blob length is an exact multiple of the part size, the number
of chunks is exactly the quotient. -/
theorem wholeChunks_length_of_dvd (cap : Nat) (hcap : 0 < cap) :
    ∀ k (blob : List Byte), blob.length = k * cap →
      (wholeChunks cap blob).length = k := by
  intro k
  induction k with
  | zero =>
    intro blob hlen
    have : blob = [] := List.length_eq_zero.mp (by omega)
    rw [this, wholeChunks_nil]
    rfl
  | succ n ih =>
    intro blob hlen
    have hmul : (n + 1) * cap = n * cap + cap := by ring
    have hne : blob ≠ [] := by
      intro h
      rw [h] at hlen
      simp at hlen
      omega
    rw [wholeChunks_cons cap hcap blob hne, List.length_cons,
      ih (blob.drop cap) (by rw [List.length_drop, hlen, hmul]; omega)]

/-- `callsFrom` uploads exactly the given parts. -/
theorem callsFrom_map_bytes (fb : Int) :
    ∀ ps : List (List Byte), (callsFrom fb ps).map uploadPartCall.bytes = ps := by
  intro ps
  induction ps generalizing fb with
  | nil => rfl
  | cons p ps ih => simp [callsFrom, ih]

/-- `callsFrom` tags contiguous byte ranges starting at `fb`. -/
theorem callsFrom_contiguous (fb : Int) :
    ∀ ps : List (List Byte), contiguousFrom fb (callsFrom fb ps) := by
  intro ps
  induction ps generalizing fb with
  | nil => trivial
  | cons p ps ih =>
    refine ⟨rfl, rfl, ?_⟩
    have : fb + (p.length : Int) - 1 + 1 = fb + (p.length : Int) := by ring
    rw [this]
    exact ih (fb + (p.length : Int))

theorem callsFrom_firstByte_le (fb : Int) :
    ∀ ps : List (List Byte), ∀ c ∈ callsFrom fb ps, fb ≤ c.PartFirstByte := by
  intro ps
  induction ps generalizing fb with
  | nil => simp [callsFrom]
  | cons p ps ih =>
    simp only [callsFrom, List.mem_cons]
    rintro c (rfl | hc)
    · exact le_refl _
    · have := ih (fb + (p.length : Int)) c hc
      omega

/-- With nonempty parts the upload offsets are strictly increasing. -/
theorem callsFrom_strict_mono (fb : Int) :
    ∀ ps : List (List Byte), (∀ p ∈ ps, p ≠ []) →
      (callsFrom fb ps).Pairwise
        (fun a b => a.PartFirstByte < b.PartFirstByte) := by
  intro ps
  induction ps generalizing fb with
  | nil => simp [callsFrom]
  | cons p ps ih =>
    intro hne
    simp only [callsFrom, List.pairwise_cons]
    constructor
    · intro c hc
      have h1 := callsFrom_firstByte_le (fb + (p.length : Int)) ps c hc
      have h2 : p ≠ [] := hne p (List.mem_cons_self p ps)
      have h3 : 0 < p.length := List.length_pos.mpr h2
      have : (0 : Int) < (p.length : Int) := by exact_mod_cast h3
      show fb < c.PartFirstByte
      omega
    · exact ih (fb + (p.length : Int)) (fun q hq => hne q (List.mem_cons_of_mem p hq))

theorem callsFrom_length (fb : Int) :
    ∀ ps : List (List Byte), (callsFrom fb ps).length = ps.length
  | [] => rfl
  | p :: ps => by
    simp only [callsFrom, List.length_cons]
    rw [callsFrom_length (fb + (p.length : Int)) ps]

theorem mem_destHasLayer_aux (d : String) :
    ∀ (avails : List layerAvailability) (acc : List String),
      (d ∈ avails.foldl
          (fun m la =>
            if la.LayerAvailability = "AVAILABLE" then la.LayerDigest :: m else m)
          acc
        ↔ d ∈ acc ∨ ∃ la, la ∈ avails ∧ la.LayerDigest = d ∧
            la.LayerAvailability = "AVAILABLE")
  | [], acc => by simp
  | la :: rest, acc => by
    rw [List.foldl_cons, mem_destHasLayer_aux d rest _]
    by_cases h : la.LayerAvailability = "AVAILABLE"
    · rw [if_pos h]
      simp only [List.mem_cons, List.mem_cons]
      constructor
      · rintro ((rfl | hacc) | ⟨la', hla', h1, h2⟩)
        · exact Or.inr ⟨la, Or.inl rfl, rfl, h⟩
        · exact Or.inl hacc
        · exact Or.inr ⟨la', Or.inr hla', h1, h2⟩
      · rintro (hacc | ⟨la', (rfl | hla'), h1, h2⟩)
        · exact Or.inl (Or.inr hacc)
        · exact Or.inl (Or.inl h1.symm)
        · exact Or.inr ⟨la', hla', h1, h2⟩
    · rw [if_neg h]
      constructor
      · rintro (hacc | ⟨la', hla', h1, h2⟩)
        · exact Or.inl hacc
        · exact Or.inr ⟨la', List.mem_cons_of_mem la hla', h1, h2⟩
      · rintro (hacc | ⟨la', hla', h1, h2⟩)
        · exact Or.inl hacc
        · rcases List.mem_cons.mp hla' with rfl | hla''
          · exact absurd h2 h
          · exact Or.inr ⟨la', hla'', h1, h2⟩

theorem mem_destHasLayer (avails : List layerAvailability) (d : String) :
    d ∈ destHasLayer avails ↔
      ∃ la, la ∈ avails ∧ la.LayerDigest = d ∧
        la.LayerAvailability = "AVAILABLE" := by
  unfold destHasLayer
  rw [mem_destHasLayer_aux d avails []]
  simp

theorem contains_destHasLayer (avails : List layerAvailability) (d : String) :
    (destHasLayer avails).contains d = reportedAvailable avails d := by
  rw [Bool.eq_iff_iff]
  unfold reportedAvailable
  rw [List.any_eq_true]
  constructor
  · intro h
    have hm : d ∈ destHasLayer avails := List.elem_iff.mp h
    rw [mem_destHasLayer] at hm
    obtain ⟨la, hla, h1, h2⟩ := hm
    exact ⟨la, hla, by simp [h1, h2]⟩
  · intro h
    obtain ⟨la, hla, hp⟩ := h
    simp only [Bool.and_eq_true, decide_eq_true_eq] at hp
    have : d ∈ destHasLayer avails :=
      (mem_destHasLayer avails d).mpr ⟨la, hla, hp.1, hp.2⟩
    exact List.elem_iff.mpr this

/-- Splitting `copyLayers` at the first failing layer: everything before it
succeeds and is attempted, the failing layer is attempted, nothing after it
is attempted, and its wrapped error is the result. -/
theorem copyLayers_append_fail (outcome : String → Except String Unit) :
    ∀ (pre : List imageLayer) (l : imageLayer) (post : List imageLayer)
      (e : String),
      (∀ l' ∈ pre, outcome l'.Digest = .ok ()) →
      outcome l.Digest = .error e →
      copyLayers (pre ++ l :: post) outcome =
        ((pre ++ [l]).map imageLayer.Digest, .error ("copyLayer: " ++ e))
  | [], l, post, e, _, hl => by
    simp only [List.nil_append, copyLayers, hl, List.map_cons, List.map_nil]
  | p :: pre, l, post, e, hpre, hl => by
    have hp : outcome p.Digest = .ok () := hpre p (List.mem_cons_self p pre)
    have ih := copyLayers_append_fail outcome pre l post e
      (fun q hq => hpre q (List.mem_cons_of_mem p hq)) hl
    simp only [List.cons_append, copyLayers, hp, List.map_cons]
    rw [List.append_eq, ih]

/-- C1: for any blob content and any positive session part size, any two
source streams delivering the same bytes (e.g. one byte per read versus the
whole blob in one read) make `copyLayer` emit identical parts and commit an
identical token; the committed digest is the finalization of the
incrementally-fed accumulator over exactly the emitted parts, whose
concatenation is the whole blob — so it equals the one-pass hash of the
blob, for every part size larger than, smaller than, equal to, or not
dividing the blob length. -/
theorem claim_C1_digest_determinism (cap : Nat) (hcap : 0 < cap)
    (uploadId : String) (hash : List Byte → String)
    (s1 s2 : List (List Byte)) (hsame : s1.flatten = s2.flatten) :
    copyLayer cap uploadId s1 hash = copyLayer cap uploadId s2 hash ∧
    ∃ r, copyLayer cap uploadId s1 hash = some r ∧
      (r.uploads.map uploadPartCall.bytes).flatten = s1.flatten ∧
      r.commitToken = uploadId ++ ":" ++ hash s1.flatten := by
  constructor
  · rw [copyLayer_eq cap hcap uploadId s1 hash,
      copyLayer_eq cap hcap uploadId s2 hash, hsame]
  · refine ⟨_, copyLayer_eq cap hcap uploadId s1 hash, ?_, rfl⟩
    rw [callsFrom_map_bytes, flatten_wholeChunks cap hcap]

theorem claim_C1_witness :
    copyLayer 2 "uid" [[10, 11, 12]] (fun bs => toString bs)
        = copyLayer 2 "uid" [[10], [11], [12]] (fun bs => toString bs) ∧
    ∃ r, copyLayer 2 "uid" [[10, 11, 12]] (fun bs => toString bs) = some r ∧
      (r.uploads.map uploadPartCall.bytes).flatten = [[10, 11, 12]].flatten ∧
      r.commitToken = "uid" ++ ":" ++ toString [10, 11, 12] :=
  claim_C1_digest_determinism 2 (by decide) "uid" (fun bs => toString bs)
    [[10, 11, 12]] [[10], [11], [12]] rfl

/-- C2: when the blob length is an exact positive multiple of the session
part size, exactly `length / partSize` parts are uploaded — never one
more; no empty trailing part is emitted. -/
theorem claim_C2_no_spurious_empty_part (cap k : Nat) (hcap : 0 < cap)
    (hk : 0 < k) (uploadId : String) (hash : List Byte → String)
    (stream : List (List Byte)) (hlen : stream.flatten.length = k * cap) :
    ∃ r, copyLayer cap uploadId stream hash = some r ∧
      r.uploads.length = stream.flatten.length / cap := by
  refine ⟨_, copyLayer_eq cap hcap uploadId stream hash, ?_⟩
  show (callsFrom 0 (wholeChunks cap stream.flatten)).length = _
  rw [callsFrom_length, wholeChunks_length_of_dvd cap hcap k _ hlen, hlen,
    Nat.mul_div_cancel k hcap]

theorem claim_C2_witness :
    0 < 3 ∧ 0 < 2 ∧
    ∃ r, copyLayer 3 "uid" [[1, 2], [3, 4, 5, 6]] (fun bs => toString bs)
        = some r ∧
      r.uploads.length = [[1, 2], [3, 4, 5, 6]].flatten.length / 3 :=
  ⟨by decide, by decide,
   claim_C2_no_spurious_empty_part 3 2 (by decide) (by decide) "uid"
     (fun bs => toString bs) [[1, 2], [3, 4, 5, 6]] rfl⟩

/-- C3: every emitted part except the final one has exactly the
session-dictated part size; each part is tagged with the absolute range
computed from a running offset starting at 0 and advanced by each part's
length, so the ranges are contiguous and strictly increasing; and the hash
accumulator is fed exactly the uploaded bytes. -/
theorem claim_C3_part_invariants (cap : Nat) (hcap : 0 < cap)
    (uploadId : String) (hash : List Byte → String)
    (stream : List (List Byte)) :
    ∃ r, copyLayer cap uploadId stream hash = some r ∧
      (∀ c ∈ r.uploads.dropLast, c.bytes.length = cap) ∧
      contiguousFrom 0 r.uploads ∧
      r.uploads.Pairwise (fun a b => a.PartFirstByte < b.PartFirstByte) ∧
      r.hashed = (r.uploads.map uploadPartCall.bytes).flatten := by
  refine ⟨_, copyLayer_eq cap hcap uploadId stream hash, ?_, ?_, ?_, ?_⟩
  · intro c hc
    have hb : c.bytes ∈ ((callsFrom 0 (wholeChunks cap stream.flatten)).map
        uploadPartCall.bytes).dropLast := by
      rw [← List.map_dropLast]
      exact List.mem_map_of_mem uploadPartCall.bytes hc
    rw [callsFrom_map_bytes] at hb
    exact wholeChunks_dropLast cap hcap stream.flatten c.bytes hb
  · exact callsFrom_contiguous 0 _
  · exact callsFrom_strict_mono 0 _ (wholeChunks_ne_nil cap hcap stream.flatten)
  · show stream.flatten = _
    rw [callsFrom_map_bytes, flatten_wholeChunks cap hcap]

theorem claim_C3_witness :
    ∃ r, copyLayer 2 "uid" [[7, 8, 9, 10, 11]] (fun bs => toString bs)
        = some r ∧
      (∀ c ∈ r.uploads.dropLast, c.bytes.length = 2) ∧
      contiguousFrom 0 r.uploads ∧
      r.uploads.Pairwise (fun a b => a.PartFirstByte < b.PartFirstByte) ∧
      r.hashed = (r.uploads.map uploadPartCall.bytes).flatten :=
  claim_C3_part_invariants 2 (by decide) "uid" (fun bs => toString bs)
    [[7, 8, 9, 10, 11]]

/-- C4 as stated is false: the accumulator is always SHA-256
(src/main.go line 167), so for a blob digest declaring any other
algorithm, the accumulator's algorithm does not match the declared one. -/
theorem claim_C4_counterexample :
    copyLayerHashAlgorithm "sha512:00" ≠ declaredAlgorithm "sha512:00" := by
  decide

/-- C4 (amended): for every transfer that reaches end-of-stream, the commit
token is exactly the upload session id, a colon, and the hex digest
finalized from the locally maintained accumulator, which was fed exactly
the transferred bytes (never a remotely reported digest); the accumulator's
algorithm is always SHA-256 regardless of the algorithm the blob digest
declares (so it matches the declared algorithm only when that is
`sha256`). -/
theorem claim_C4_commit_token (cap : Nat) (hcap : 0 < cap)
    (uploadId layerDigest : String) (hash : List Byte → String)
    (stream : List (List Byte)) :
    ∃ r, copyLayer cap uploadId stream hash = some r ∧
      r.commitToken = uploadId ++ ":" ++ hash r.hashed ∧
      r.hashed = stream.flatten ∧
      copyLayerHashAlgorithm layerDigest = "sha256" :=
  ⟨_, copyLayer_eq cap hcap uploadId stream hash, rfl, rfl, rfl⟩

theorem claim_C4_witness :
    ∃ r, copyLayer 4 "uid" [[1], [2, 3]] (fun bs => toString bs) = some r ∧
      r.commitToken = "uid" ++ ":" ++ toString r.hashed ∧
      r.hashed = [[1], [2, 3]].flatten ∧
      copyLayerHashAlgorithm "sha512:00" = "sha256" :=
  claim_C4_commit_token 4 (by decide) "uid" "sha512:00"
    (fun bs => toString bs) [[1], [2, 3]]

/-- C10: a zero-length blob (end-of-stream with zero bytes on the first
read) uploads no parts at all, yet still commits with a token containing
the hash of the empty input. -/
theorem claim_C10_empty_blob (cap : Nat) (hcap : 0 < cap)
    (uploadId : String) (hash : List Byte → String)
    (stream : List (List Byte)) (hempty : stream.flatten = []) :
    copyLayer cap uploadId stream hash =
      some ⟨[], [], uploadId ++ ":" ++ hash []⟩ := by
  rw [copyLayer_eq cap hcap uploadId stream hash, hempty, wholeChunks_nil]
  rfl

theorem claim_C10_witness :
    copyLayer 3 "uid" [] (fun bs => toString bs)
      = some ⟨[], [], "uid" ++ ":" ++ toString ([] : List Byte)⟩ :=
  claim_C10_empty_blob 3 (by decide) "uid" (fun bs => toString bs) [] rfl

/-- C5: if the transfer of blob N of the plan fails, blobs after N are
never passed to `copyLayer`, `putManifest` is never reached, and the whole
run aborts with that (wrapped) error. -/
theorem claim_C5_fail_fast (batchResult : Except String (List String))
    (parse : String → Option manifest)
    (avails : List layerAvailability)
    (outcome : String → Except String Unit)
    (putResult : Except String Unit) (newTag : String)
    (manifestBytes : String) (layers : List imageLayer)
    (pre post : List imageLayer) (l : imageLayer) (e : String)
    (hget : getManifest batchResult parse = .ok (manifestBytes, layers))
    (hplan : checkLayerAvails layers avails = pre ++ l :: post)
    (hpre : ∀ l' ∈ pre, outcome l'.Digest = .ok ())
    (hl : outcome l.Digest = .error e) :
    mainRun batchResult parse (.ok avails) outcome putResult newTag =
      ⟨(pre ++ [l]).map imageLayer.Digest, none,
       some ("copyLayer: " ++ e)⟩ := by
  unfold mainRun
  rw [hget]
  simp only
  rw [hplan, copyLayers_append_fail outcome pre l post e hpre hl]

theorem claim_C5_witness :
    mainRun (.ok ["MB"])
        (fun _ => some ⟨⟨"cfg", 3, "c"⟩, [⟨"l", 1, "a"⟩, ⟨"l", 2, "b"⟩]⟩)
        (.ok []) (fun d => if d = "b" then .error "boom" else .ok ())
        (.ok ()) ""
      = ⟨["a", "b"], none, some ("copyLayer: " ++ "boom")⟩ :=
  claim_C5_fail_fast (.ok ["MB"])
    (fun _ => some ⟨⟨"cfg", 3, "c"⟩, [⟨"l", 1, "a"⟩, ⟨"l", 2, "b"⟩]⟩)
    [] (fun d => if d = "b" then .error "boom" else .ok ()) (.ok ()) ""
    "MB" [⟨"l", 1, "a"⟩, ⟨"l", 2, "b"⟩, ⟨"cfg", 3, "c"⟩]
    [⟨"l", 1, "a"⟩] [⟨"cfg", 3, "c"⟩] ⟨"l", 2, "b"⟩ "boom"
    rfl rfl
    (fun l' hl' => by rcases List.mem_singleton.mp hl' with rfl; rfl)
    rfl

/-- C6: the availability checker returns exactly the input layers whose
digest the destination did not report with status `AVAILABLE` (any other
status, or absence from the response, counts as not available), and the
result preserves the input list's relative order (it is a sublist of the
input). -/
theorem claim_C6_skip_correctness (layers : List imageLayer)
    (avails : List layerAvailability) :
    checkLayerAvails layers avails =
      layers.filter (fun l => !reportedAvailable avails l.Digest) ∧
    (checkLayerAvails layers avails).Sublist layers := by
  constructor
  · unfold checkLayerAvails
    exact List.filter_congr (fun l _ => by rw [contains_destHasLayer])
  · exact List.filter_sublist layers

/-- C7 as stated is false: the code performs no case normalization; a
manifest digest with uppercase hex is not matched by an `AVAILABLE` report
with lowercase hex (the blob is kept for re-transfer) while its lowercase
twin is skipped, and the digest-form classifier rejects uppercase hex. -/
theorem claim_C7_counterexample :
    checkLayerAvails [⟨"m", 1, "sha256:AB"⟩] [⟨"sha256:ab", "AVAILABLE"⟩]
        = [⟨"m", 1, "sha256:AB"⟩] ∧
    checkLayerAvails [⟨"m", 1, "sha256:ab"⟩] [⟨"sha256:ab", "AVAILABLE"⟩]
        = [] ∧
    classifiesAsDigest "sha256:AB" = false ∧
    classifiesAsDigest "sha256:ab" = true := by
  decide

/-- C7 (amended): digests are never case-normalized; comparison is exact,
case-sensitive string equality, so a layer whose digest differs as a raw
string from every digest reported `AVAILABLE` — in particular differing
only in hex-letter case — is kept for re-transfer rather than skipped. -/
theorem claim_C7_case_sensitive (mt : String) (sz : Int) (d1 d2 : String)
    (hne : d1 ≠ d2) :
    checkLayerAvails [⟨mt, sz, d1⟩] [⟨d2, "AVAILABLE"⟩]
      = [⟨mt, sz, d1⟩] := by
  have hmem : d1 ∉ destHasLayer [⟨d2, "AVAILABLE"⟩] := by
    rw [mem_destHasLayer]
    rintro ⟨la, hla, h1, h2⟩
    rw [List.mem_singleton] at hla
    subst hla
    exact hne h1.symm
  unfold checkLayerAvails
  simp [hmem]

theorem claim_C7_amended_witness :
    checkLayerAvails [⟨"mt", 1, "sha256:AB"⟩] [⟨"sha256:ab", "AVAILABLE"⟩]
      = [⟨"mt", 1, "sha256:AB"⟩] :=
  claim_C7_case_sensitive "mt" 1 "sha256:AB" "sha256:ab" (by decide)

/-- C8: for every successfully parsed manifest, the resolver returns the
manifest's layers in their original order with the config blob appended as
the last element, alongside the raw manifest bytes. -/
theorem claim_C8_layers_order (manifestBytes : String)
    (parse : String → Option manifest) (m : manifest)
    (hparse : parse manifestBytes = some m) :
    getManifest (.ok [manifestBytes]) parse =
      .ok (manifestBytes, m.Layers ++ [m.Config]) := by
  show (match parse manifestBytes with
    | some m => Except.ok (manifestBytes, m.Layers ++ [m.Config])
    | none => Except.error "Unmarshal ImageManifest") =
      Except.ok (manifestBytes, m.Layers ++ [m.Config])
  rw [hparse]

theorem claim_C8_witness :
    getManifest (.ok ["MB"])
        (fun _ => some ⟨⟨"cfg", 3, "c"⟩, [⟨"l", 1, "a"⟩, ⟨"l", 2, "b"⟩]⟩) =
      .ok ("MB", [⟨"l", 1, "a"⟩, ⟨"l", 2, "b"⟩] ++ [⟨"cfg", 3, "c"⟩]) :=
  claim_C8_layers_order "MB"
    (fun _ => some ⟨⟨"cfg", 3, "c"⟩, [⟨"l", 1, "a"⟩, ⟨"l", 2, "b"⟩]⟩)
    ⟨⟨"cfg", 3, "c"⟩, [⟨"l", 1, "a"⟩, ⟨"l", 2, "b"⟩]⟩ rfl

/-- C9: whenever the run reaches `PutImage`, the manifest bytes passed to
it are byte-for-byte the single manifest string `BatchGetImage` returned;
the parsed structure is never re-serialized into new manifest bytes. -/
theorem claim_C9_manifest_verbatim (batchResult : Except String (List String))
    (parse : String → Option manifest)
    (availResp : Except String (List layerAvailability))
    (outcome : String → Except String Unit)
    (putResult : Except String Unit) (newTag : String)
    (input : putImageInput)
    (hpub : (mainRun batchResult parse availResp outcome putResult
        newTag).published = some input) :
    batchResult = .ok [input.ImageManifest] := by
  rcases batchResult with e | imgs
  · simp [mainRun, getManifest] at hpub
  · rcases imgs with _ | ⟨manifestBytes, rest⟩
    · simp [mainRun, getManifest] at hpub
    · rcases rest with _ | ⟨m2, rest2⟩
      · rcases hp : parse manifestBytes with _ | m
        · simp [mainRun, getManifest, hp] at hpub
        · rcases availResp with e | avails
          · simp [mainRun, getManifest, hp] at hpub
          · rcases hcl : copyLayers
                (checkLayerAvails (m.Layers ++ [m.Config]) avails) outcome
              with ⟨att, res⟩
            rcases res with e | u
            · simp [mainRun, getManifest, hp, hcl] at hpub
            · cases u
              rcases putResult with e | u2
              · simp [mainRun, getManifest, hp, hcl, putManifest] at hpub
                rw [← hpub]
              · cases u2
                simp [mainRun, getManifest, hp, hcl, putManifest] at hpub
                rw [← hpub]
      · simp [mainRun, getManifest] at hpub

theorem claim_C9_witness :
    (Except.ok ["MB"] : Except String (List String)) =
      .ok [(putImageInput.mk "MB" none).ImageManifest] :=
  claim_C9_manifest_verbatim (.ok ["MB"])
    (fun _ => some ⟨⟨"cfg", 3, "c"⟩, []⟩) (.ok []) (fun _ => .ok ())
    (.ok ()) "" ⟨"MB", none⟩ rfl

end EcrCopy
